import Mathlib

/-!
Verification of the markdown web scraper (`web-scraper-markdown.js`).

This file gives a shallow embedding of the scraper's pure logic:
JavaScript strings are modelled as `List Char` (`Str`), the `URL` class is
modelled by `parseURL` / `urlToString`, the rendered DOM is modelled by
`DomNode`, and the crawl loop of `scrapeToMarkdown` is modelled by
`crawlStep` / `crawlLoop` over an abstract "world" describing what each
navigation produces.  Theorems about the embedding settle the specification
claims about normalization, deduplication, depth bounding, Markdown
conversion, file naming and the run counters.
-/

set_option linter.unusedVariables false

set_option linter.unnecessarySimpa false

/-- JavaScript strings are modelled as lists of characters. -/
abbrev Str := List Char

/-- Shorthand turning a Lean string literal into the `Str` model. -/
def str (s : String) : Str := s.data

/-- Model of JS `String.prototype.startsWith`. -/
def jsStartsWith (s pre : Str) : Bool := pre.isPrefixOf s

/-- Model of JS `String.prototype.endsWith`. -/
def jsEndsWith (s suf : Str) : Bool := suf.isSuffixOf s

/-- The whitespace class of the JS regexp `\s` (and of `String.prototype.trim`),
restricted to the characters relevant here: space, tab, newline, carriage
return, vertical tab, form feed and no-break space. -/
def jsWhitespace (c : Char) : Bool :=
  c = ' ' || c = '\t' || c = '\n' || c = '\r' || c = '\x0b' || c = '\x0c' || c = ' '

/-- Model of JS `String.prototype.trim`: drop whitespace from both ends. -/
def jsTrim (s : Str) : Str :=
  ((s.dropWhile jsWhitespace).reverse.dropWhile jsWhitespace).reverse

/-- Replace every maximal run of characters satisfying `p` by the single
character `r`; this is JS `replace(/p+/g, r)`.  The boolean flag records
whether the previous character was part of a run. -/
def collapseRunsAux (p : Char → Bool) (r : Char) : Bool → Str → Str
  | _, [] => []
  | inRun, c :: cs =>
    if p c then
      (if inRun then [] else [r]) ++ collapseRunsAux p r true cs
    else
      c :: collapseRunsAux p r false cs

/-- JS `replace(/\s+/g, ' ')`. -/
def collapseWhitespace (s : Str) : Str := collapseRunsAux jsWhitespace ' ' false s

/-- JS `replace(/\n+/g, '\n')`. -/
def collapseNewlines (s : Str) : Str := collapseRunsAux (fun c => c = '\n') '\n' false s

/-- Model of the scraper's `cleanText` (web-scraper-markdown.js lines 228-234):
`if (!text) return ''; return text.trim().replace(/\s+/g,' ').replace(/\n+/g,'\n')`. -/
def cleanText (text : Str) : Str :=
  if text = [] then []
  else collapseNewlines (collapseWhitespace (jsTrim text))

/-- Model of JS `String.prototype.split` with a single-character separator. -/
def splitOnChar (sep : Char) : Str → List Str
  | [] => [[]]
  | c :: cs =>
    if c = sep then [] :: splitOnChar sep cs
    else
      match splitOnChar sep cs with
      | [] => [[c]]
      | l :: ls => (c :: l) :: ls

/-- Model of JS `String.prototype.replace` with a *string* pattern: only the
first occurrence of `pat` is replaced by `rep`. -/
def replaceFirstSub (pat rep : Str) : Str → Str
  | [] => []
  | c :: cs =>
    if pat.isPrefixOf (c :: cs) then rep ++ (c :: cs).drop pat.length
    else c :: replaceFirstSub pat rep cs

/-- Split a string at the first occurrence of `sep`: the first component is
everything before the separator and the second component is the rest of the
string starting at the separator itself (empty when `sep` does not occur). -/
def splitAtFirst (sep : Char) : Str → Str × Str
  | [] => ([], [])
  | c :: cs =>
    if c = sep then ([], c :: cs)
    else
      ((splitAtFirst sep cs).1.cons c, (splitAtFirst sep cs).2)

/-- ASCII letter test, by code point. -/
def isAsciiLetter (c : Char) : Bool :=
  (65 ≤ c.toNat && c.toNat ≤ 90) || (97 ≤ c.toNat && c.toNat ≤ 122)

/-- Characters allowed in a URL scheme after the first letter. -/
def isSchemeChar (c : Char) : Bool :=
  isAsciiLetter c || (48 ≤ c.toNat && c.toNat ≤ 57) || c = '+' || c = '-' || c = '.'

/-- A URL scheme is a letter followed by scheme characters. -/
def validScheme : Str → Bool
  | [] => false
  | c :: cs => isAsciiLetter c && cs.all isSchemeChar

/-- Model of a parsed JS `URL` object (for `scheme://`-style URLs).  `host`
is the authority string (JS lowercases it; a port, if any, stays inside it),
`pathname` always starts with `/`, `search` is `""` or starts with `?`, and
`hash` is `""` or starts with `#`. -/
structure URLModel where
  scheme : Str
  host : Str
  pathname : Str
  search : Str
  hash : Str
deriving DecidableEq, Repr

/-- Model of the JS `new URL(s)` constructor for absolute `scheme://` URLs:
the scheme is everything before the first `:` (which must be followed by
`//`), the fragment starts at the first `#`, the query at the first `?`
before the fragment, and the path at the first `/` after the authority.
Scheme and host are lowercased as the JS constructor does.  Strings not of
the form `scheme://authority...` are rejected (`none` models a thrown
`TypeError`). -/
def parseURL (cs : Str) : Option URLModel :=
  match (splitAtFirst ':' cs).2 with
  | ':' :: '/' :: '/' :: rest =>
    if validScheme (splitAtFirst ':' cs).1 then
      if (splitAtFirst '/' (splitAtFirst '?' (splitAtFirst '#' rest).1).1).1 = [] then none
      else some
        { scheme := ((splitAtFirst ':' cs).1).map Char.toLower
          host := ((splitAtFirst '/' (splitAtFirst '?' (splitAtFirst '#' rest).1).1).1).map Char.toLower
          pathname :=
            if (splitAtFirst '/' (splitAtFirst '?' (splitAtFirst '#' rest).1).1).2 = []
            then ['/']
            else (splitAtFirst '/' (splitAtFirst '?' (splitAtFirst '#' rest).1).1).2
          search := (splitAtFirst '?' (splitAtFirst '#' rest).1).2
          hash := (splitAtFirst '#' rest).2 }
    else none
  | _ => none

/-- Serialization of a parsed URL, modelling JS `URL.prototype.toString`. -/
def urlToString (u : URLModel) : Str :=
  u.scheme ++ ':' :: '/' :: '/' :: (u.host ++ u.pathname ++ u.search ++ u.hash)

/-- Model of `removeFragment` (web-scraper-markdown.js lines 12-20): parse the
URL, clear its `hash`, and serialize; on a parse failure return the input
unchanged. -/
def removeFragment (urlString : Str) : Str :=
  match parseURL urlString with
  | some parsedUrl => urlToString { parsedUrl with hash := [] }
  | none => urlString

/-- JS `replace(/^_/, '')`: strip a single leading underscore. -/
def stripLeadingUnderscore : Str → Str
  | '_' :: rest => rest
  | l => l

/-- The Markdown file name derivation of the Page Pipeline
(web-scraper-markdown.js lines 118-121): parse the normalized URL (`none`
models the thrown `TypeError` when it is unparseable), replace every `/` of
the pathname by `_`, strip one leading underscore, default to `index`, and
append `.md` unless it is already a suffix. -/
def pipelineFileName (normalizedUrl : Str) : Option Str :=
  match parseURL normalizedUrl with
  | none => none
  | some parsedUrl =>
    let fileName := stripLeadingUnderscore
      (parsedUrl.pathname.map (fun c => if c = '/' then '_' else c))
    let fileName := if fileName = [] then str "index" else fileName
    let fileName := if jsEndsWith fileName (str ".md") then fileName else fileName ++ str ".md"
    some fileName

/-- The file name derivation of `createIndexMarkdown`
(web-scraper-markdown.js lines 409-412); textually the same computation as
the pipeline's. -/
def indexFileName (normalizedUrl : Str) : Option Str :=
  match parseURL normalizedUrl with
  | none => none
  | some parsedUrl =>
    let fileName := stripLeadingUnderscore
      (parsedUrl.pathname.map (fun c => if c = '/' then '_' else c))
    let fileName := if fileName = [] then str "index" else fileName
    let fileName := if jsEndsWith fileName (str ".md") then fileName else fileName ++ str ".md"
    some fileName

/-- The screenshot file name (web-scraper-markdown.js line 143):
`fileName.replace('.md', '.png')`, which replaces the *first* occurrence of
`.md`. -/
def screenshotName (fileName : Str) : Str :=
  replaceFirstSub (str ".md") (str ".png") fileName

/-- Drop the last path segment of `p`, keeping the trailing `/` (the
directory part used when resolving a path-relative reference). -/
def dirOfPath (p : Str) : Str :=
  (((p.reverse).dropWhile (fun c => c ≠ '/')).reverse)

/-- Model of the two-argument JS constructor `new URL(ref, base)`:
an absolute reference is parsed on its own; otherwise the reference is
resolved against the parsed base (host-relative for `/...`, query-only for
`?...`, fragment-only for `#...`, and last-segment replacement otherwise).
Dot-segment normalization is not modelled.  `none` models a thrown
`TypeError` (in particular whenever both the reference and the base are
unparseable). -/
def resolveURL (ref base : Str) : Option URLModel :=
  match parseURL ref with
  | some u => some u
  | none =>
    match parseURL base with
    | none => none
    | some b =>
      match ref with
      | '#' :: _ => some { b with hash := ref }
      | '?' :: _ =>
        some { b with search := (splitAtFirst '#' ref).1, hash := (splitAtFirst '#' ref).2 }
      | '/' :: _ =>
        some { b with
          pathname := (splitAtFirst '?' (splitAtFirst '#' ref).1).1
          search := (splitAtFirst '?' (splitAtFirst '#' ref).1).2
          hash := (splitAtFirst '#' ref).2 }
      | _ =>
        some { b with
          pathname := dirOfPath b.pathname ++ (splitAtFirst '?' (splitAtFirst '#' ref).1).1
          search := (splitAtFirst '?' (splitAtFirst '#' ref).1).2
          hash := (splitAtFirst '#' ref).2 }

/-- Model of `new URL(href, baseUrl).href` as used by the content extractor;
JS would throw on an unresolvable reference (aborting the page inside the
per-page error boundary), which no claim exercises, so the model falls back
to the raw reference there. -/
def resolveHref (href base : Str) : Str :=
  match resolveURL href base with
  | some u => urlToString u
  | none => href

/-- The `sameDomain` closure from the link-harvest step
(web-scraper-markdown.js lines 152-165): a reference starting with `/` is
same-domain; otherwise both URLs are constructed and their hostnames
compared, any construction failure yielding `false`. -/
def sameDomain (baseUrl urlStr : Str) : Bool :=
  if jsStartsWith urlStr (str "/") then true
  else
    match parseURL baseUrl, resolveURL urlStr baseUrl with
    | some base, some url => url.host == base.host
    | _, _ => false

/-- The link filter of the harvest step (web-scraper-markdown.js lines
167-170): drop empty, `javascript:` and `mailto:` targets, then keep
same-domain ones. -/
def filterLinks (baseUrl : Str) (links : List Str) : List Str :=
  (links.filter (fun href =>
    !(href == []) && !(jsStartsWith href (str "javascript:")) && !(jsStartsWith href (str "mailto:")))).filter
    (fun href => sameDomain baseUrl href)

/-- Model of a rendered DOM node: an element with tag name, attributes, a
flag recording whether its computed style hides it (`display: none` or
`visibility: hidden`), and its child nodes in order; or a text node. -/
inductive DomNode where
  | element (tag : Str) (attrs : List (Str × Str)) (hidden : Bool) (children : List DomNode)
  | text (content : Str)

/-- Whether a child node is an element (`nodeType === Node.ELEMENT_NODE`). -/
def isElementNode : DomNode → Bool
  | .element _ _ _ _ => true
  | .text _ => false

/-- The `tagName` of an element child (only ever read on elements). -/
def tagNameOf : DomNode → Str
  | .element tag _ _ _ => tag
  | .text _ => []

/-- Model of `getAttribute`: the first binding of `name`, `none` for JS `null`. -/
def getAttr (attrs : List (Str × Str)) (name : Str) : Option Str :=
  match attrs.find? (fun p => p.1 == name) with
  | some p => some p.2
  | none => none

mutual

/-- DOM `textContent`: the concatenation of all descendant text nodes. -/
def textContent : DomNode → Str
  | .text content => content
  | .element _ _ _ children => textContentList children

/-- `textContent` of a list of sibling nodes. -/
def textContentList : List DomNode → Str
  | [] => []
  | n :: ns => textContent n ++ textContentList ns

end

/-- The tags skipped outright by the converter (web-scraper-markdown.js line 252). -/
def skipTags : List Str :=
  [str "script", str "style", str "noscript", str "svg", str "nav", str "footer", str "iframe"]

/-- The container tags whose children are converted recursively
(web-scraper-markdown.js lines 325-331). -/
def containerTags : List Str :=
  [str "div", str "section", str "article", str "main", str "aside", str "header", str "span"]

/-- Decimal rendering of a number, for ordered-list indices. -/
def natStr (n : Nat) : Str := (Nat.repr n).data

mutual

/-- Model of `elementToMarkdown` (web-scraper-markdown.js lines 239-360).
The function is only ever invoked on element nodes (text children are
handled by the caller's loop), so the `text` case returns the empty string.
`new URL(href, base).href` is modelled by `resolveHref`. -/
def elementToMarkdown (baseUrl : Str) : DomNode → Str
  | .text _ => []
  | .element tag attrs hidden children =>
    if hidden then []
    else
      let tagName := tag.map Char.toLower
      if tagName ∈ skipTags then []
      else if tagName = str "h1" then str "# " ++ cleanText (textContentList children) ++ str "\n\n"
      else if tagName = str "h2" then str "## " ++ cleanText (textContentList children) ++ str "\n\n"
      else if tagName = str "h3" then str "### " ++ cleanText (textContentList children) ++ str "\n\n"
      else if tagName = str "h4" then str "#### " ++ cleanText (textContentList children) ++ str "\n\n"
      else if tagName = str "h5" then str "##### " ++ cleanText (textContentList children) ++ str "\n\n"
      else if tagName = str "h6" then str "###### " ++ cleanText (textContentList children) ++ str "\n\n"
      else if tagName = str "p" then
        let text := cleanText (textContentList children)
        if text = [] then [] else text ++ str "\n\n"
      else if tagName = str "ul" then
        let ulItems := ((children.filter isElementNode).map (fun child =>
          if (tagNameOf child).map Char.toLower = str "li" then
            str "* " ++ cleanText (textContent child) ++ ['\n']
          else [])).flatten
        if ulItems = [] then [] else ulItems ++ ['\n']
      else if tagName = str "ol" then
        let olItems := (((children.filter isElementNode).enum).map (fun p =>
          if (tagNameOf p.2).map Char.toLower = str "li" then
            natStr (p.1 + 1) ++ str ". " ++ cleanText (textContent p.2) ++ ['\n']
          else [])).flatten
        if olItems = [] then [] else olItems ++ ['\n']
      else if tagName = str "a" then
        let href := (getAttr attrs (str "href")).getD []
        if !(href == []) && !(jsStartsWith href (str "javascript:"))
            && !(jsStartsWith href (str "mailto:")) then
          str "[" ++ cleanText (textContentList children) ++ str "](" ++ resolveHref href baseUrl ++ str ")"
        else cleanText (textContentList children)
      else if tagName = str "img" then
        let src := (getAttr attrs (str "src")).getD []
        let alt := (getAttr attrs (str "alt")).getD []
        if !(src == []) then
          str "![" ++ alt ++ str "](" ++ resolveHref src baseUrl ++ str ")"
        else []
      else if tagName = str "code" || tagName = str "pre" then
        str "```\n" ++ textContentList children ++ str "\n```\n\n"
      else if tagName = str "blockquote" then
        let quote := cleanText (textContentList children)
        (List.intercalate ['\n'] ((splitOnChar '\n' quote).map (fun line => str "> " ++ line)))
          ++ str "\n\n"
      else if tagName = str "hr" then str "---\n\n"
      else if tagName = str "br" then ['\n']
      else if tagName = str "table" then str "[表は省略されました]\n\n"
      else if tagName ∈ containerTags then
        childNodesToMarkdown baseUrl children
      else
        if children.length > 0 then childNodesToMarkdown baseUrl children
        else cleanText (textContentList children)

/-- The child-node accumulation loop shared by the container and default
cases: elements are converted recursively, nonempty cleaned text children
are appended followed by one space. -/
def childNodesToMarkdown (baseUrl : Str) : List DomNode → Str
  | [] => []
  | child :: rest =>
    (match child with
      | .element _ _ _ _ => elementToMarkdown baseUrl child
      | .text content =>
        let text := cleanText content
        if text = [] then [] else text ++ [' ']) ++ childNodesToMarkdown baseUrl rest

end

/-- The outcome the outside world produces when the pipeline processes one
URL: `renderFail` models an error thrown before the Markdown file is
written (navigation, metadata evaluation, extraction, file-name parsing or
write failure), `screenshotFail` an error thrown after the write but before
link harvesting, and `success` a fully processed page whose anchors carry
the given raw `href` values. -/
inductive Outcome where
  | renderFail
  | screenshotFail
  | success (links : List Str)

/-- Model of JS `[...new Set(list)]`: deduplication keeping the first
occurrence of each element, in order. -/
def dedupFirst (seen : List Str) : List Str → List Str
  | [] => []
  | x :: xs => if x ∈ seen then dedupFirst seen xs else x :: dedupFirst (x :: seen) xs

/-- The mutable state of `scrapeToMarkdown`'s crawl loop: the frontier
queue of (URL, depth) pairs, the visited set of normalized URLs, the two
run-metadata counters, and a ghost log of the (normalized URL, depth)
entries handed to the page pipeline, in order. -/
structure CrawlState where
  queue : List (Str × Nat)
  visited : List Str
  pagesScraped : Nat
  markdownFiles : Nat
  processed : List (Str × Nat)
deriving DecidableEq, Repr

/-- The initial crawl state (web-scraper-markdown.js lines 29-59): the seed
URL is defragmented before being queued at depth 0. -/
def initState (targetUrl : Str) : CrawlState :=
  { queue := [(removeFragment targetUrl, 0)]
    visited := []
    pagesScraped := 0
    markdownFiles := 0
    processed := [] }

/-- One iteration of the while-loop of `scrapeToMarkdown`
(web-scraper-markdown.js lines 68-188): pop the head entry, skip it if its
normalized form is visited or its depth exceeds `maxDepth`, otherwise mark
it visited, advance `pagesScraped`, and process the page according to the
world's outcome; on success advance `markdownFiles` and, when
`depth < maxDepth`, filter, deduplicate and enqueue the unvisited harvested
links at `depth + 1`. -/
def crawlStep (world : Str → Outcome) (maxDepth : Nat) (s : CrawlState) : CrawlState :=
  match s.queue with
  | [] => s
  | (currentUrl, depth) :: rest =>
    let normalizedUrl := removeFragment currentUrl
    if normalizedUrl ∈ s.visited then { s with queue := rest }
    else if maxDepth < depth then { s with queue := rest }
    else
      let s1 : CrawlState :=
        { queue := rest
          visited := normalizedUrl :: s.visited
          pagesScraped := s.pagesScraped + 1
          markdownFiles := s.markdownFiles
          processed := s.processed ++ [(normalizedUrl, depth)] }
      match world currentUrl with
      | .renderFail => s1
      | .screenshotFail => { s1 with markdownFiles := s1.markdownFiles + 1 }
      | .success links =>
        let s2 := { s1 with markdownFiles := s1.markdownFiles + 1 }
        if depth < maxDepth then
          let uniqueLinks := dedupFirst [] (filterLinks currentUrl links)
          let newEntries :=
            (uniqueLinks.filter (fun link => decide (removeFragment link ∉ s2.visited))).map
              (fun link => (link, depth + 1))
          { s2 with queue := s2.queue ++ newEntries }
        else s2

/-- The crawl loop: iterate `crawlStep` while the queue is nonempty, with
an explicit fuel bound on the number of iterations (running the loop with
every fuel value covers every intermediate state of the run). -/
def crawlLoop (world : Str → Outcome) (maxDepth : Nat) : Nat → CrawlState → CrawlState
  | 0, s => s
  | fuel + 1, s =>
    match s.queue with
    | [] => s
    | _ :: _ => crawlLoop world maxDepth fuel (crawlStep world maxDepth s)

/-! ## Claim C8: the two file-name derivations agree -/

/-- C8: the file-name derivation used by the Index Builder is extensionally
equal to the one used by the Page Pipeline — for every normalized address
both produce the same base name, so every index entry links to the file
name the pipeline wrote. -/
theorem fileName_derivations_agree (normalizedUrl : Str) :
    pipelineFileName normalizedUrl = indexFileName normalizedUrl := rfl

/-! ## Claim C6: the screenshot name -/

/-- If `pat` occurs nowhere in the first `a.length` positions of
`a ++ pat ++ t`, then replacing the first occurrence of `pat` replaces
exactly the occurrence sitting at position `a.length`. -/
theorem replaceFirstSub_at_first_occurrence (pat rep : Str) (hpat : pat ≠ []) :
    ∀ (a t : Str),
      (∀ i, i < a.length → pat.isPrefixOf ((a ++ pat ++ t).drop i) = false) →
      replaceFirstSub pat rep (a ++ pat ++ t) = a ++ rep ++ t := by
  intro a
  induction a with
  | nil =>
    intro t _
    match pat, hpat with
    | p :: ps, _ =>
      simp only [List.nil_append, List.cons_append, replaceFirstSub]
      rw [if_pos (List.isPrefixOf_iff_prefix.mpr (by exact ⟨t, by simp⟩))]
      show rep ++ List.drop (p :: ps).length ((p :: ps) ++ t) = rep ++ t
      rw [List.drop_left]
  | cons c a ih =>
    intro t h
    have h0 : pat.isPrefixOf (c :: (a ++ pat ++ t)) = false := by
      have := h 0 (by simp)
      simpa using this
    simp only [List.cons_append, replaceFirstSub]
    show (if List.isPrefixOf pat (c :: (a ++ pat ++ t)) = true then
            rep ++ List.drop (List.length pat) (c :: (a ++ pat ++ t))
          else c :: replaceFirstSub pat rep (a ++ pat ++ t)) = c :: (a ++ rep ++ t)
    rw [if_neg (show ¬(List.isPrefixOf pat (c :: (a ++ pat ++ t)) = true) by
      simp only [h0]
      exact Bool.false_ne_true)]
    have hrec := ih t (fun i hi => by
      have := h (i + 1) (by simpa using Nat.succ_lt_succ hi)
      simpa using this)
    exact congrArg (c :: ·) hrec

/-- C6 counterexample: for the normalized address
`https://x.com/doc.md/page` the derived file name is `doc.md_page.md`, and
the screenshot name produced by `fileName.replace('.md', '.png')` is
`doc.png_page.md`, not the claimed `doc.md_page.png` (the base name with
its `.md` suffix swapped for `.png`). -/
theorem screenshotName_counterexample :
    pipelineFileName (str "https://x.com/doc.md/page") = some (str "doc.md_page.md") ∧
    screenshotName (str "doc.md_page.md") = str "doc.png_page.md" ∧
    screenshotName (str "doc.md_page.md") ≠ str "doc.md_page.png" :=
  ⟨by decide, by decide, by decide⟩

/-- C6 (amended): the screenshot name replaces the *first* occurrence of
`.md` in the derived file name with `.png`; when `.md` occurs nowhere
before the final suffix this coincides with swapping the suffix, so the
screenshot then shares the page's base name. -/
theorem screenshotName_swaps_suffix_when_unique (base : Str)
    (h : ∀ i, i < base.length → (str ".md").isPrefixOf ((base ++ str ".md").drop i) = false) :
    screenshotName (base ++ str ".md") = base ++ str ".png" := by
  have := replaceFirstSub_at_first_occurrence (str ".md") (str ".png") (by decide) base []
    (by simpa using h)
  simpa [screenshotName] using this

/-- Witness for the amended C6 theorem at the concrete file name `page.md`. -/
theorem screenshotName_swaps_suffix_when_unique_witness :
    screenshotName (str "page" ++ str ".md") = str "page" ++ str ".png" :=
  screenshotName_swaps_suffix_when_unique (str "page") (by decide)

/-! ## Claim C5: ordered-list rendering -/

/-- A list-item element carrying the given text. -/
def liOf (t : Str) : DomNode := .element (str "li") [] false [.text t]

/-- C5 counterexample: an ordered list whose direct element children are
`li "A"`, `p "X"`, `li "B"` renders as `1. A\n3. B\n\n` — the second list
item is numbered by its position among *all* element children — not as the
claimed `1. A\n2. B\n\n`. -/
theorem orderedList_counterexample :
    elementToMarkdown (str "https://x.com/")
      (.element (str "ol") [] false
        [liOf (str "A"),
         .element (str "p") [] false [.text (str "X")],
         liOf (str "B")]) = str "1. A\n3. B\n\n" ∧
    str "1. A\n3. B\n\n" ≠ str "1. A\n2. B\n\n" :=
  ⟨by decide, by decide⟩

/-- Filtering a list of list-item elements for element nodes keeps all of them. -/
theorem filter_isElementNode_map_liOf (items : List Str) :
    (items.map liOf).filter isElementNode = items.map liOf := by
  induction items with
  | nil => rfl
  | cons t ts ih => simp [liOf, isElementNode, ih]

/-- The ordered-list item accumulation over all-`li` children, with the
running index starting at `k`. -/
theorem olItems_all_li (items : List Str) : ∀ k : Nat,
    ((List.enumFrom k (items.map liOf)).map (fun p =>
        if (tagNameOf p.2).map Char.toLower = str "li" then
          natStr (p.1 + 1) ++ str ". " ++ cleanText (textContent p.2) ++ ['\n']
        else [])).flatten
      = ((List.enumFrom k items).map (fun p =>
          natStr (p.1 + 1) ++ str ". " ++ cleanText p.2 ++ ['\n'])).flatten := by
  induction items with
  | nil => intro k; rfl
  | cons t ts ih =>
    intro k
    simp only [List.map_cons, List.enumFrom, List.flatten_cons]
    rw [ih (k + 1)]
    have hli : (tagNameOf (liOf t)).map Char.toLower = str "li" := rfl
    have htc : textContent (liOf t) = t := by
      simp [liOf, textContent, textContentList]
    rw [if_pos hli, htc]

/-- C5 (amended): each direct list-item child of an ordered list is rendered
as its 1-based index among the element's direct *element children* (so
non-list-item element children shift the numbering), followed by `. ` and
its cleaned text, one per line, with a trailing blank line and empty output
for no items.  When every direct element child is a list item — as here —
the indices are 1..n, so items `["A","B"]` yield `1. A\n2. B\n\n`. -/
theorem orderedList_numbering (baseUrl : Str) (attrs : List (Str × Str)) (items : List Str) :
    elementToMarkdown baseUrl (.element (str "ol") attrs false (items.map liOf)) =
      (if ((items.enum).map (fun p =>
            natStr (p.1 + 1) ++ str ". " ++ cleanText p.2 ++ ['\n'])).flatten = []
       then []
       else ((items.enum).map (fun p =>
            natStr (p.1 + 1) ++ str ". " ++ cleanText p.2 ++ ['\n'])).flatten ++ ['\n']) := by
  have hbranch : elementToMarkdown baseUrl (.element (str "ol") attrs false (items.map liOf)) =
      (if ((((items.map liOf).filter isElementNode).enum).map (fun p =>
            if (tagNameOf p.2).map Char.toLower = str "li" then
              natStr (p.1 + 1) ++ str ". " ++ cleanText (textContent p.2) ++ ['\n']
            else [])).flatten = []
       then []
       else ((((items.map liOf).filter isElementNode).enum).map (fun p =>
            if (tagNameOf p.2).map Char.toLower = str "li" then
              natStr (p.1 + 1) ++ str ". " ++ cleanText (textContent p.2) ++ ['\n']
            else [])).flatten ++ ['\n']) := rfl
  rw [hbranch, filter_isElementNode_map_liOf]
  simp only [List.enum, olItems_all_li items 0]

/-! ## Claim C9: markdownFiles never exceeds pagesScraped -/

/-- One crawl step preserves `markdownFiles ≤ pagesScraped`. -/
theorem crawlStep_counter_le (world : Str → Outcome) (maxDepth : Nat) (s : CrawlState)
    (h : s.markdownFiles ≤ s.pagesScraped) :
    (crawlStep world maxDepth s).markdownFiles ≤ (crawlStep world maxDepth s).pagesScraped := by
  unfold crawlStep
  rcases s.queue with _ | ⟨⟨currentUrl, depth⟩, rest⟩
  · exact h
  · dsimp only
    split
    · exact h
    · split
      · exact h
      · rcases world currentUrl with _ | _ | links
        · dsimp only; omega
        · dsimp only; omega
        · dsimp only
          split
          · dsimp only; omega
          · dsimp only; omega

/-- The whole crawl loop preserves `markdownFiles ≤ pagesScraped`. -/
theorem crawlLoop_counter_le (world : Str → Outcome) (maxDepth : Nat) :
    ∀ (fuel : Nat) (s : CrawlState), s.markdownFiles ≤ s.pagesScraped →
      (crawlLoop world maxDepth fuel s).markdownFiles ≤
        (crawlLoop world maxDepth fuel s).pagesScraped := by
  intro fuel
  induction fuel with
  | zero => intro s h; exact h
  | succ n ih =>
    intro s h
    unfold crawlLoop
    rcases hq : s.queue with _ | ⟨e, rest⟩
    · exact h
    · exact ih _ (crawlStep_counter_le world maxDepth s h)

/-- C9: at every point of a run (i.e. after any number of loop iterations)
`markdownFiles ≤ pagesScraped` holds — `pagesScraped` is advanced when an
entry is claimed, before page processing, while `markdownFiles` is advanced
at most once per entry, only after the document write. -/
theorem markdownFiles_le_pagesScraped (world : Str → Outcome)
    (maxDepth fuel : Nat) (targetUrl : Str) :
    (crawlLoop world maxDepth fuel (initState targetUrl)).markdownFiles ≤
      (crawlLoop world maxDepth fuel (initState targetUrl)).pagesScraped :=
  crawlLoop_counter_le world maxDepth fuel (initState targetUrl) (Nat.le_refl 0)

/-! ## Claim C3: no normalized address is processed twice -/

/-- Invariant for deduplication: the normalized addresses in the processed
log are pairwise distinct and all recorded in the visited set. -/
def DedupInv (s : CrawlState) : Prop :=
  (s.processed.map Prod.fst).Nodup ∧
    ∀ n ∈ s.processed.map Prod.fst, n ∈ s.visited

/-- One crawl step preserves the deduplication invariant: an entry is only
handed to the pipeline when its normalized address is not yet visited, and
it is marked visited in the same step. -/
theorem crawlStep_dedupInv (world : Str → Outcome) (maxDepth : Nat) (s : CrawlState)
    (h : DedupInv s) : DedupInv (crawlStep world maxDepth s) := by
  obtain ⟨hnd, hsub⟩ := h
  unfold crawlStep
  rcases s.queue with _ | ⟨⟨currentUrl, depth⟩, rest⟩
  · exact ⟨hnd, hsub⟩
  · dsimp only
    split
    · exact ⟨hnd, hsub⟩
    · split
      · exact ⟨hnd, hsub⟩
      · rename_i hnotvis _
        have hstep : DedupInv
            { queue := rest
              visited := removeFragment currentUrl :: s.visited
              pagesScraped := s.pagesScraped + 1
              markdownFiles := s.markdownFiles
              processed := s.processed ++ [(removeFragment currentUrl, depth)] } := by
          constructor
          · simp only [List.map_append, List.map_cons, List.map_nil]
            rw [List.nodup_append]
            refine ⟨hnd, List.nodup_singleton _, ?_⟩
            intro n hn hmem
            have : n = removeFragment currentUrl := by simpa using hmem
            exact hnotvis (this ▸ hsub n hn)
          · intro n hn
            simp only [List.map_append, List.map_cons, List.map_nil, List.mem_append,
              List.mem_singleton] at hn
            rcases hn with hn | hn
            · exact List.mem_cons_of_mem _ (hsub n hn)
            · simp [hn]
        rcases world currentUrl with _ | _ | links
        · exact hstep
        · exact ⟨hstep.1, hstep.2⟩
        · dsimp only
          split
          · exact ⟨hstep.1, hstep.2⟩
          · exact ⟨hstep.1, hstep.2⟩

/-- The crawl loop preserves the deduplication invariant. -/
theorem crawlLoop_dedupInv (world : Str → Outcome) (maxDepth : Nat) :
    ∀ (fuel : Nat) (s : CrawlState), DedupInv s → DedupInv (crawlLoop world maxDepth fuel s) := by
  intro fuel
  induction fuel with
  | zero => intro s h; exact h
  | succ n ih =>
    intro s h
    unfold crawlLoop
    rcases hq : s.queue with _ | ⟨e, rest⟩
    · exact h
    · exact ih _ (crawlStep_dedupInv world maxDepth s h)

/-- C3: in every run of the crawl loop, no normalized address is handed to
the page-processing stage more than once — the normalized addresses of the
processed frontier entries are pairwise distinct. -/
theorem processed_normalized_nodup (world : Str → Outcome)
    (maxDepth fuel : Nat) (targetUrl : Str) :
    ((crawlLoop world maxDepth fuel (initState targetUrl)).processed.map Prod.fst).Nodup :=
  (crawlLoop_dedupInv world maxDepth fuel (initState targetUrl)
    ⟨List.nodup_nil, by intro n hn; simp [initState] at hn⟩).1

/-! ## Claim C4: the depth bound -/

/-- Invariant: every processed entry has depth at most `maxDepth`. -/
def DepthInv (maxDepth : Nat) (s : CrawlState) : Prop :=
  ∀ p ∈ s.processed, p.2 ≤ maxDepth

/-- One crawl step preserves the depth invariant: an entry whose depth
exceeds `maxDepth` is discarded before processing. -/
theorem crawlStep_depthInv (world : Str → Outcome) (maxDepth : Nat) (s : CrawlState)
    (h : DepthInv maxDepth s) : DepthInv maxDepth (crawlStep world maxDepth s) := by
  unfold crawlStep
  rcases s.queue with _ | ⟨⟨currentUrl, depth⟩, rest⟩
  · exact h
  · dsimp only
    split
    · exact h
    · split
      · exact h
      · rename_i hdepth
        have hd : depth ≤ maxDepth := Nat.le_of_not_lt hdepth
        have hstep : DepthInv maxDepth
            { queue := rest
              visited := removeFragment currentUrl :: s.visited
              pagesScraped := s.pagesScraped + 1
              markdownFiles := s.markdownFiles
              processed := s.processed ++ [(removeFragment currentUrl, depth)] } := by
          intro p hp
          rcases List.mem_append.mp hp with hp | hp
          · exact h p hp
          · have : p = (removeFragment currentUrl, depth) := by simpa using hp
            simpa [this] using hd
        rcases world currentUrl with _ | _ | links
        · exact hstep
        · exact fun p hp => hstep p hp
        · dsimp only
          split
          · exact fun p hp => hstep p hp
          · exact fun p hp => hstep p hp

/-- The crawl loop preserves the depth invariant. -/
theorem crawlLoop_depthInv (world : Str → Outcome) (maxDepth : Nat) :
    ∀ (fuel : Nat) (s : CrawlState), DepthInv maxDepth s →
      DepthInv maxDepth (crawlLoop world maxDepth fuel s) := by
  intro fuel
  induction fuel with
  | zero => intro s h; exact h
  | succ n ih =>
    intro s h
    unfold crawlLoop
    rcases hq : s.queue with _ | ⟨e, rest⟩
    · exact h
    · exact ih _ (crawlStep_depthInv world maxDepth s h)

/-- C4: no processed frontier entry has depth greater than `maxDepth`, and a
step that processes the head entry at depth exactly `maxDepth` pushes no
children — the new queue is exactly the remaining tail. -/
theorem depth_bound_invariant :
    (∀ (world : Str → Outcome) (maxDepth fuel : Nat) (targetUrl : Str)
        (p : Str × Nat), p ∈ (crawlLoop world maxDepth fuel (initState targetUrl)).processed →
          p.2 ≤ maxDepth) ∧
    (∀ (world : Str → Outcome) (maxDepth : Nat) (s : CrawlState)
        (currentUrl : Str) (rest : List (Str × Nat)),
          s.queue = (currentUrl, maxDepth) :: rest →
            (crawlStep world maxDepth s).queue = rest) := by
  constructor
  · intro world maxDepth fuel targetUrl p hp
    exact crawlLoop_depthInv world maxDepth fuel (initState targetUrl)
      (by intro q hq; simp [initState] at hq) p hp
  · intro world maxDepth s currentUrl rest hq
    unfold crawlStep
    rw [hq]
    dsimp only
    split
    · rfl
    · rw [if_neg (Nat.lt_irrefl maxDepth)]
      rcases world currentUrl with _ | _ | links
      · rfl
      · rfl
      · dsimp only
        rw [if_neg (Nat.lt_irrefl maxDepth)]

/-- Witness for C4 at a concrete world, seed and state: the single processed
entry of a depth-0 run has depth 0, and a step on a head entry at the depth
bound leaves exactly the tail queue. -/
theorem depth_bound_invariant_witness :
    ((removeFragment (str "https://e.com/"), 0) : Str × Nat).2 ≤ 0 ∧
    (crawlStep (fun _ => Outcome.success []) 0
        { queue := [(str "https://e.com/a", 0)]
          visited := []
          pagesScraped := 0
          markdownFiles := 0
          processed := [] }).queue = [] :=
  ⟨depth_bound_invariant.1 (fun _ => Outcome.renderFail) 0 3 (str "https://e.com/")
      (removeFragment (str "https://e.com/"), 0) (by decide),
   depth_bound_invariant.2 (fun _ => Outcome.success []) 0
      { queue := [(str "https://e.com/a", 0)]
        visited := []
        pagesScraped := 0
        markdownFiles := 0
        processed := [] }
      (str "https://e.com/a") [] rfl⟩

/-! ## Claim C1: metadata on a failing page -/

/-- C1 counterexample: in a run whose every navigation fails, the single
frontier entry still advances `pagesScraped` to 1 — the counter is
incremented when the entry is claimed, before the error boundary — so the
run metadata is *not* unchanged by a failing entry (`markdownFiles` does
stay 0). -/
theorem failing_entry_counterexample :
    (crawlLoop (fun _ => Outcome.renderFail) 2 5
        (initState (str "https://example.com/"))).pagesScraped = 1 ∧
    (crawlLoop (fun _ => Outcome.renderFail) 2 5
        (initState (str "https://example.com/"))).pagesScraped ≠ 0 ∧
    (crawlLoop (fun _ => Outcome.renderFail) 2 5
        (initState (str "https://example.com/"))).markdownFiles = 0 :=
  ⟨by decide, by decide, by decide⟩

/-- C1 (amended): when the head frontier entry's page processing fails
(navigation or extraction error), the entry leaves `markdownFiles`
untouched, harvests no links, and the crawl continues with the remaining
queue — but `pagesScraped` *is* advanced by one, having been incremented
when the entry was claimed, before processing began. -/
theorem failing_entry_step (world : Str → Outcome) (maxDepth : Nat) (s : CrawlState)
    (currentUrl : Str) (depth : Nat) (rest : List (Str × Nat))
    (hq : s.queue = (currentUrl, depth) :: rest)
    (hv : removeFragment currentUrl ∉ s.visited)
    (hd : depth ≤ maxDepth)
    (hw : world currentUrl = Outcome.renderFail) :
    crawlStep world maxDepth s =
      { queue := rest
        visited := removeFragment currentUrl :: s.visited
        pagesScraped := s.pagesScraped + 1
        markdownFiles := s.markdownFiles
        processed := s.processed ++ [(removeFragment currentUrl, depth)] } := by
  unfold crawlStep
  rw [hq]
  dsimp only
  rw [if_neg hv, if_neg (Nat.not_lt.mpr hd), hw]

/-- Witness for the amended C1 theorem at a concrete state and world. -/
theorem failing_entry_step_witness :
    crawlStep (fun _ => Outcome.renderFail) 2
        { queue := [(str "https://e.com/x#f", 1)]
          visited := [str "https://e.com/v"]
          pagesScraped := 3
          markdownFiles := 2
          processed := [] } =
      { queue := []
        visited := removeFragment (str "https://e.com/x#f") :: [str "https://e.com/v"]
        pagesScraped := 4
        markdownFiles := 2
        processed := [] ++ [(removeFragment (str "https://e.com/x#f"), 1)] } :=
  failing_entry_step (fun _ => Outcome.renderFail) 2
    { queue := [(str "https://e.com/x#f", 1)]
      visited := [str "https://e.com/v"]
      pagesScraped := 3
      markdownFiles := 2
      processed := [] }
    (str "https://e.com/x#f") 1 [] rfl (by decide) (by decide) rfl

/-! ## Claim C7: the same-domain filter -/

/-- A string starting with `/` has no scheme, so URL parsing rejects it. -/
theorem parseURL_slash (t : Str) : parseURL ('/' :: t) = none := by
  have h1 : splitAtFirst ':' ('/' :: t) =
      (('/' :: (splitAtFirst ':' t).1), (splitAtFirst ':' t).2) := by
    simp [splitAtFirst]
  have hletter : isAsciiLetter '/' = false := by decide
  unfold parseURL
  rw [h1]
  split
  · have hvs : validScheme ('/' :: (splitAtFirst ':' t).1) = false := by
      simp [validScheme, hletter]
    simp [hvs]
  · rfl

/-- C7: the same-domain filter accepts every link starting with `/`; it
accepts an absolute (parseable) link, given a parseable originating page
URL, exactly when the two hosts agree; and `javascript:`/`mailto:` targets
are excluded by the preceding filter stage, never reaching `sameDomain`'s
verdict. -/
theorem sameDomain_spec :
    (∀ baseUrl urlStr : Str, jsStartsWith urlStr (str "/") = true →
        sameDomain baseUrl urlStr = true) ∧
    (∀ (baseUrl urlStr : Str) (u b : URLModel),
        parseURL urlStr = some u → parseURL baseUrl = some b →
        (sameDomain baseUrl urlStr = true ↔ u.host = b.host)) ∧
    (∀ (baseUrl : Str) (links : List Str) (href : Str),
        jsStartsWith href (str "javascript:") = true ∨ jsStartsWith href (str "mailto:") = true →
        href ∉ filterLinks baseUrl links) := by
  refine ⟨?_, ?_, ?_⟩
  · intro baseUrl urlStr h
    simp [sameDomain, h]
  · intro baseUrl urlStr u b hu hb
    have hns : jsStartsWith urlStr (str "/") = false := by
      cases hsw : jsStartsWith urlStr (str "/") with
      | false => rfl
      | true =>
        obtain ⟨t, ht⟩ := List.isPrefixOf_iff_prefix.mp hsw
        rw [← ht] at hu
        rw [show ((str "/") ++ t) = '/' :: t from rfl, parseURL_slash] at hu
        cases hu
    unfold sameDomain
    simp only [hns, Bool.false_eq_true, if_false]
    unfold resolveURL
    rw [hu, hb]
    simp [beq_iff_eq]
  · intro baseUrl links href h
    simp only [filterLinks, List.mem_filter]
    rintro ⟨⟨hmem, hp⟩, hsd⟩
    rcases h with h | h <;> simp [h] at hp

/-- Witness for C7 at concrete links: a root-relative link is accepted, an
absolute same-host link is accepted, and a `javascript:` link never
survives the filter. -/
theorem sameDomain_spec_witness :
    sameDomain (str "https://x.com/a") (str "/p") = true ∧
    sameDomain (str "https://x.com/a") (str "https://x.com/b") = true ∧
    str "javascript:void(0)" ∉
      filterLinks (str "https://x.com/a") [str "javascript:void(0)"] :=
  ⟨sameDomain_spec.1 (str "https://x.com/a") (str "/p") (by decide),
   (sameDomain_spec.2.1 (str "https://x.com/a") (str "https://x.com/b")
      ⟨str "https", str "x.com", str "/b", [], []⟩
      ⟨str "https", str "x.com", str "/a", [], []⟩
      (by decide) (by decide)).mpr rfl,
   sameDomain_spec.2.2 (str "https://x.com/a") [str "javascript:void(0)"]
      (str "javascript:void(0)") (Or.inl (by decide))⟩

/-! ## Claim C10: cleanText yields a single line; blockquotes are one line -/

/-- Every character emitted by the run-collapsing pass is either the
replacement character or an input character not matched by `p`. -/
theorem mem_collapseRunsAux (p : Char → Bool) (r : Char) :
    ∀ (l : Str) (b : Bool) (c : Char), c ∈ collapseRunsAux p r b l →
      c = r ∨ (c ∈ l ∧ p c = false) := by
  intro l
  induction l with
  | nil => intro b c hc; simp [collapseRunsAux] at hc
  | cons x xs ih =>
    intro b c hc
    by_cases hx : p x = true
    · rw [collapseRunsAux, if_pos hx] at hc
      rcases List.mem_append.mp hc with hc | hc
      · left
        cases b <;> simpa using hc
      · rcases ih true c hc with h | ⟨hmem, hpc⟩
        · exact Or.inl h
        · exact Or.inr ⟨List.mem_cons_of_mem x hmem, hpc⟩
    · rw [collapseRunsAux, if_neg hx] at hc
      rcases List.mem_cons.mp hc with hc | hc
      · exact Or.inr ⟨by simp [hc], by subst hc; simpa using hx⟩
      · rcases ih false c hc with h | ⟨hmem, hpc⟩
        · exact Or.inl h
        · exact Or.inr ⟨List.mem_cons_of_mem x hmem, hpc⟩

/-- When no character matches `p`, the run-collapsing pass is the identity. -/
theorem collapseRunsAux_id (p : Char → Bool) (r : Char) :
    ∀ (l : Str) (b : Bool), (∀ x ∈ l, p x = false) → collapseRunsAux p r b l = l := by
  intro l
  induction l with
  | nil => intro b _; rfl
  | cons x xs ih =>
    intro b h
    rw [collapseRunsAux, if_neg (by simp [h x (List.mem_cons_self x xs)])]
    rw [ih false (fun y hy => h y (List.mem_cons_of_mem x hy))]

/-- `cleanText` never emits a newline: the whitespace collapse replaces
every whitespace run — newlines included — by a single space, after which
the newline collapse is the identity. -/
theorem cleanTextNoNewline (text : Str) : '\n' ∉ cleanText text := by
  unfold cleanText
  split
  · simp
  · have hw : '\n' ∉ collapseWhitespace (jsTrim text) := by
      intro h
      rcases mem_collapseRunsAux jsWhitespace ' ' (jsTrim text) false '\n' h with h | ⟨_, hpc⟩
      · cases h
      · rw [show jsWhitespace '\n' = true from by decide] at hpc
        cases hpc
    rw [collapseNewlines, collapseRunsAux_id _ _ _ _ (fun x hx => by
      rcases Decidable.eq_or_ne x '\n' with hxe | hxe
      · exact absurd (hxe ▸ hx) hw
      · simpa using hxe)]
    exact hw

/-- Splitting on a character that does not occur returns the whole string. -/
theorem splitOnChar_of_not_mem (sep : Char) (l : Str) (h : sep ∉ l) :
    splitOnChar sep l = [l] := by
  induction l with
  | nil => rfl
  | cons x xs ih =>
    rw [splitOnChar, if_neg (by rintro rfl; exact h (List.mem_cons_self x xs))]
    rw [ih (fun hmem => h (List.mem_cons_of_mem x hmem))]

/-- Interleaving a separator into a one-element list is the identity. -/
theorem intercalate_singleton (sep : Str) (a : Str) : List.intercalate sep [a] = a := by
  simp [List.intercalate]

/-- C10: `cleanText` returns a string with no newline character, and
consequently every (visible) blockquote element renders as exactly one line
prefixed with `> ` followed by two newlines. -/
theorem cleanText_single_line_blockquote :
    (∀ text : Str, '\n' ∉ cleanText text) ∧
    (∀ (baseUrl : Str) (attrs : List (Str × Str)) (children : List DomNode),
      elementToMarkdown baseUrl (.element (str "blockquote") attrs false children) =
        str "> " ++ cleanText (textContentList children) ++ str "\n\n") := by
  refine ⟨cleanTextNoNewline, ?_⟩
  intro baseUrl attrs children
  have hbranch : elementToMarkdown baseUrl (.element (str "blockquote") attrs false children) =
      (List.intercalate ['\n'] ((splitOnChar '\n' (cleanText (textContentList children))).map
        (fun line => str "> " ++ line))) ++ str "\n\n" := rfl
  rw [hbranch, splitOnChar_of_not_mem '\n' _ (cleanTextNoNewline _)]
  rw [List.map_singleton, intercalate_singleton, List.append_assoc]

/-! ## Claim C2: removeFragment is total and idempotent -/

/-- Characters are equal when their code points are. -/
theorem char_eq_of_toNat_eq {c d : Char} (h : c.toNat = d.toNat) : c = d :=
  Char.ext (UInt32.ext h)

/-- `Char.ofNat` of a valid code point round-trips through `toNat`. -/
theorem toNat_ofNat_valid (n : Nat) (h : n.isValidChar) : (Char.ofNat n).toNat = n := by
  rw [Char.ofNat, dif_pos h]
  simp [Char.ofNatAux, Char.toNat, UInt32.toNat, BitVec.toNat_ofNatLt]

/-- Lowercasing an ASCII upper-case letter adds 32 to its code point. -/
theorem toLower_toNat_of_upper {c : Char} (h1 : 65 ≤ c.toNat) (h2 : c.toNat ≤ 90) :
    (Char.toLower c).toNat = c.toNat + 32 := by
  unfold Char.toLower
  rw [if_pos ⟨h1, h2⟩]
  exact toNat_ofNat_valid _ (Or.inl (by omega))

/-- Lowercasing fixes everything but ASCII upper-case letters. -/
theorem toLower_eq_self {c : Char} (h : ¬(65 ≤ c.toNat ∧ c.toNat ≤ 90)) :
    Char.toLower c = c := by
  unfold Char.toLower
  rw [if_neg h]

/-- Lowercasing a character twice is the same as doing it once. -/
theorem toLower_idem (c : Char) : Char.toLower (Char.toLower c) = Char.toLower c := by
  by_cases h : 65 ≤ c.toNat ∧ c.toNat ≤ 90
  · have := toLower_toNat_of_upper h.1 h.2
    exact toLower_eq_self (by omega)
  · rw [toLower_eq_self h]
    exact toLower_eq_self h

/-- Lowercasing cannot produce a character with code point below 97 that was
not already there. -/
theorem toLower_ne_low {sep c : Char} (hsep : sep.toNat < 97) (hc : c ≠ sep) :
    Char.toLower c ≠ sep := by
  by_cases h : 65 ≤ c.toNat ∧ c.toNat ≤ 90
  · intro he
    have h1 := toLower_toNat_of_upper h.1 h.2
    rw [he] at h1
    omega
  · rw [toLower_eq_self h]
    exact hc

/-- URL delimiter characters (all with code point below 97) stay absent
under lowercasing. -/
theorem not_mem_map_toLower {sep : Char} (hsep : sep.toNat < 97) {l : Str}
    (h : sep ∉ l) : sep ∉ l.map Char.toLower := by
  intro hmem
  obtain ⟨c, hc, he⟩ := List.mem_map.mp hmem
  exact toLower_ne_low hsep (fun hce => h (hce ▸ hc)) he

/-- Lowercasing a string twice is the same as doing it once. -/
theorem map_toLower_idem (l : Str) :
    (l.map Char.toLower).map Char.toLower = l.map Char.toLower := by
  rw [List.map_map]
  exact List.map_congr_left (fun c _ => toLower_idem c)

/-- Lowercasing preserves ASCII letters. -/
theorem isAsciiLetter_toLower {c : Char} (h : isAsciiLetter c = true) :
    isAsciiLetter (Char.toLower c) = true := by
  unfold isAsciiLetter at h ⊢
  by_cases hu : 65 ≤ c.toNat ∧ c.toNat ≤ 90
  · have := toLower_toNat_of_upper hu.1 hu.2
    simp only [this]
    simp only [Bool.or_eq_true, Bool.and_eq_true, decide_eq_true_eq] at h ⊢
    omega
  · rw [toLower_eq_self hu]
    exact h

/-- Lowercasing preserves scheme characters. -/
theorem isSchemeChar_toLower {c : Char} (h : isSchemeChar c = true) :
    isSchemeChar (Char.toLower c) = true := by
  unfold isSchemeChar at h ⊢
  simp only [Bool.or_eq_true, Bool.and_eq_true, decide_eq_true_eq] at h ⊢
  rcases h with ((((h | h) | h) | h) | h)
  · exact Or.inl (Or.inl (Or.inl (Or.inl (isAsciiLetter_toLower h))))
  · rw [toLower_eq_self (by omega)]
    exact Or.inl (Or.inl (Or.inl (Or.inr h)))
  · subst h
    decide
  · subst h
    decide
  · subst h
    decide

/-- Lowercasing preserves scheme validity. -/
theorem validScheme_map_toLower {l : Str} (h : validScheme l = true) :
    validScheme (l.map Char.toLower) = true := by
  match l with
  | [] => cases h
  | c :: cs =>
    rw [validScheme] at h
    simp only [Bool.and_eq_true, List.all_eq_true] at h
    rw [List.map_cons, validScheme]
    simp only [Bool.and_eq_true, List.all_eq_true]
    exact ⟨isAsciiLetter_toLower h.1, fun x hx => by
      obtain ⟨y, hy, he⟩ := List.mem_map.mp hx
      exact he ▸ isSchemeChar_toLower (h.2 y hy)⟩

/-- The two halves returned by `splitAtFirst` concatenate to the input. -/
theorem splitAtFirst_append_fst_snd (sep : Char) :
    ∀ l : Str, (splitAtFirst sep l).1 ++ (splitAtFirst sep l).2 = l := by
  intro l
  induction l with
  | nil => rfl
  | cons c cs ih =>
    rw [splitAtFirst]
    by_cases h : c = sep
    · rw [if_pos h]
      rfl
    · rw [if_neg h]
      simpa using ih

/-- The separator never occurs before its first occurrence. -/
theorem not_mem_splitAtFirst_fst (sep : Char) :
    ∀ l : Str, sep ∉ (splitAtFirst sep l).1 := by
  intro l
  induction l with
  | nil => simp [splitAtFirst]
  | cons c cs ih =>
    rw [splitAtFirst]
    by_cases h : c = sep
    · rw [if_pos h]
      simp
    · rw [if_neg h]
      intro hmem
      rcases List.mem_cons.mp hmem with hmem | hmem
      · exact h hmem.symm
      · exact ih hmem

/-- The second half of `splitAtFirst` is empty or starts with the separator. -/
theorem splitAtFirst_snd_shape (sep : Char) :
    ∀ l : Str, (splitAtFirst sep l).2 = [] ∨ ∃ t, (splitAtFirst sep l).2 = sep :: t := by
  intro l
  induction l with
  | nil => left; rfl
  | cons c cs ih =>
    rw [splitAtFirst]
    by_cases h : c = sep
    · rw [if_pos h]
      exact Or.inr ⟨cs, by rw [h]⟩
    · rw [if_neg h]
      simpa using ih

/-- Splitting at an absent separator returns the whole input and an empty tail. -/
theorem splitAtFirst_of_not_mem (sep : Char) :
    ∀ l : Str, sep ∉ l → splitAtFirst sep l = (l, []) := by
  intro l
  induction l with
  | nil => intro _; rfl
  | cons c cs ih =>
    intro h
    rw [splitAtFirst, if_neg (by intro he; subst he; exact h (List.mem_cons_self c cs))]
    rw [ih (fun hm => h (List.mem_cons_of_mem c hm))]

/-- Splitting a string that starts with the separator stops immediately. -/
theorem splitAtFirst_cons_self (sep : Char) (t : Str) :
    splitAtFirst sep (sep :: t) = ([], sep :: t) := by
  rw [splitAtFirst, if_pos rfl]

/-- Splitting skips over a separator-free first part. -/
theorem splitAtFirst_append_of_not_mem (sep : Char) :
    ∀ (a b : Str), sep ∉ a →
      splitAtFirst sep (a ++ b) = (a ++ (splitAtFirst sep b).1, (splitAtFirst sep b).2) := by
  intro a
  induction a with
  | nil => intro b _; simp
  | cons c a ih =>
    intro b h
    rw [List.cons_append, splitAtFirst,
      if_neg (by intro he; subst he; exact h (List.mem_cons_self c a))]
    rw [ih b (fun hm => h (List.mem_cons_of_mem c hm))]
    rfl

/-! The parse/serialize round trip behind claim C2. -/

/-- Parsing a well-formed serialized URL recovers its components: the
scheme nonempty and colon-free, the authority nonempty and free of URL
delimiters, the path starting with `/`, the query empty or starting with
`?`, and no fragment anywhere. -/
theorem parseURL_build (sch A P Q : Str)
    (hvs : validScheme sch = true)
    (hcolon : ':' ∉ sch)
    (hA : A ≠ [])
    (hAslash : '/' ∉ A) (hAq : '?' ∉ A) (hAhash : '#' ∉ A)
    (hP : ∃ t, P = '/' :: t)
    (hPq : '?' ∉ P) (hPhash : '#' ∉ P)
    (hQ : Q = [] ∨ ∃ t, Q = '?' :: t)
    (hQhash : '#' ∉ Q) :
    parseURL (sch ++ ':' :: '/' :: '/' :: (A ++ P ++ Q)) =
      some { scheme := sch.map Char.toLower
             host := A.map Char.toLower
             pathname := P
             search := Q
             hash := [] } := by
  have hs1 : splitAtFirst ':' (sch ++ ':' :: '/' :: '/' :: (A ++ P ++ Q)) =
      (sch, ':' :: '/' :: '/' :: (A ++ P ++ Q)) := by
    rw [splitAtFirst_append_of_not_mem ':' sch _ hcolon, splitAtFirst_cons_self]
    simp
  have h2 : splitAtFirst '#' (A ++ P ++ Q) = (A ++ P ++ Q, []) :=
    splitAtFirst_of_not_mem _ _ (by
      simp only [List.mem_append, not_or]
      exact ⟨⟨hAhash, hPhash⟩, hQhash⟩)
  have hqsplit : splitAtFirst '?' Q = ([], Q) := by
    rcases hQ with hQe | ⟨t, hQt⟩
    · subst hQe; rfl
    · subst hQt; exact splitAtFirst_cons_self '?' t
  have h3 : splitAtFirst '?' (A ++ P ++ Q) = (A ++ P, Q) := by
    rw [splitAtFirst_append_of_not_mem '?' (A ++ P) Q (by
      simp only [List.mem_append, not_or]
      exact ⟨hAq, hPq⟩)]
    rw [hqsplit]
    simp
  have hpsplit : splitAtFirst '/' P = ([], P) := by
    obtain ⟨t, hPt⟩ := hP
    subst hPt
    exact splitAtFirst_cons_self '/' t
  have h4 : splitAtFirst '/' (A ++ P) = (A, P) := by
    rw [splitAtFirst_append_of_not_mem '/' A P hAslash, hpsplit]
    simp
  have hPne : P ≠ [] := by
    obtain ⟨t, hPt⟩ := hP
    simp [hPt]
  unfold parseURL
  rw [hs1]
  dsimp only
  split
  · rename_i rest heq
    obtain rfl : A ++ P ++ Q = rest := by
      injection heq with h1 h2'
      injection h2' with h3' h4'
      injection h4' with h5' h6'
    rw [h2]
    dsimp only
    rw [h3]
    dsimp only
    rw [h4]
    dsimp only
    rw [if_pos hvs, if_neg (by simpa using hA), if_neg hPne]
  · rename_i hne
    exact absurd rfl (hne (A ++ P ++ Q))

/-- Round trip: re-parsing the serialization of a parsed URL with its
fragment cleared yields exactly that fragment-free URL value. -/
theorem parseURL_roundtrip {cs : Str} {u : URLModel} (h : parseURL cs = some u) :
    parseURL (urlToString { u with hash := [] }) = some { u with hash := [] } := by
  unfold parseURL at h
  split at h
  · rename_i rest heq
    by_cases hvs : validScheme (splitAtFirst ':' cs).1 = true
    · rw [if_pos hvs] at h
      by_cases hAe : (splitAtFirst '/' (splitAtFirst '?' (splitAtFirst '#' rest).1).1).1 = []
      · rw [if_pos hAe] at h
        cases h
      · rw [if_neg hAe] at h
        injection h with hu
        subst hu
        dsimp only
        have hsub_CB : ∀ x, x ∈ (splitAtFirst '?' (splitAtFirst '#' rest).1).1 →
            x ∈ (splitAtFirst '#' rest).1 := fun x hx => by
          rw [← splitAtFirst_append_fst_snd '?' (splitAtFirst '#' rest).1]
          exact List.mem_append_left _ hx
        have hsub_AC : ∀ x, x ∈ (splitAtFirst '/' (splitAtFirst '?' (splitAtFirst '#' rest).1).1).1 →
            x ∈ (splitAtFirst '?' (splitAtFirst '#' rest).1).1 := fun x hx => by
          rw [← splitAtFirst_append_fst_snd '/' (splitAtFirst '?' (splitAtFirst '#' rest).1).1]
          exact List.mem_append_left _ hx
        have hsub_PC : ∀ x, x ∈ (splitAtFirst '/' (splitAtFirst '?' (splitAtFirst '#' rest).1).1).2 →
            x ∈ (splitAtFirst '?' (splitAtFirst '#' rest).1).1 := fun x hx => by
          rw [← splitAtFirst_append_fst_snd '/' (splitAtFirst '?' (splitAtFirst '#' rest).1).1]
          exact List.mem_append_right _ hx
        have hsub_QB : ∀ x, x ∈ (splitAtFirst '?' (splitAtFirst '#' rest).1).2 →
            x ∈ (splitAtFirst '#' rest).1 := fun x hx => by
          rw [← splitAtFirst_append_fst_snd '?' (splitAtFirst '#' rest).1]
          exact List.mem_append_right _ hx
        have hP' : ∃ t, (if (splitAtFirst '/' (splitAtFirst '?' (splitAtFirst '#' rest).1).1).2 = []
            then ['/'] else (splitAtFirst '/' (splitAtFirst '?' (splitAtFirst '#' rest).1).1).2) = '/' :: t := by
          rcases splitAtFirst_snd_shape '/' (splitAtFirst '?' (splitAtFirst '#' rest).1).1 with hs | ⟨t, hs⟩
          · rw [hs]
            exact ⟨[], rfl⟩
          · rw [hs]
            rw [if_neg (by simp)]
            exact ⟨t, rfl⟩
        have hbuild := parseURL_build
          ((splitAtFirst ':' cs).1.map Char.toLower)
          ((splitAtFirst '/' (splitAtFirst '?' (splitAtFirst '#' rest).1).1).1.map Char.toLower)
          (if (splitAtFirst '/' (splitAtFirst '?' (splitAtFirst '#' rest).1).1).2 = []
            then ['/'] else (splitAtFirst '/' (splitAtFirst '?' (splitAtFirst '#' rest).1).1).2)
          ((splitAtFirst '?' (splitAtFirst '#' rest).1).2)
          (validScheme_map_toLower hvs)
          (not_mem_map_toLower (by decide) (not_mem_splitAtFirst_fst ':' cs))
          (by simpa using hAe)
          (not_mem_map_toLower (by decide) (not_mem_splitAtFirst_fst '/' _))
          (not_mem_map_toLower (by decide) (fun hx =>
            not_mem_splitAtFirst_fst '?' _ (hsub_AC '?' hx)))
          (not_mem_map_toLower (by decide) (fun hx =>
            not_mem_splitAtFirst_fst '#' rest (hsub_CB '#' (hsub_AC '#' hx))))
          hP'
          (by
            split
            · decide
            · exact fun hx => not_mem_splitAtFirst_fst '?' _ (hsub_PC '?' hx))
          (by
            split
            · decide
            · exact fun hx => not_mem_splitAtFirst_fst '#' rest (hsub_CB '#' (hsub_PC '#' hx)))
          (splitAtFirst_snd_shape '?' (splitAtFirst '#' rest).1)
          (fun hx => not_mem_splitAtFirst_fst '#' rest (hsub_QB '#' hx))
        rw [show urlToString
            { scheme := (splitAtFirst ':' cs).1.map Char.toLower
              host := (splitAtFirst '/' (splitAtFirst '?' (splitAtFirst '#' rest).1).1).1.map Char.toLower
              pathname := if (splitAtFirst '/' (splitAtFirst '?' (splitAtFirst '#' rest).1).1).2 = []
                then ['/'] else (splitAtFirst '/' (splitAtFirst '?' (splitAtFirst '#' rest).1).1).2
              search := (splitAtFirst '?' (splitAtFirst '#' rest).1).2
              hash := [] } =
            (splitAtFirst ':' cs).1.map Char.toLower ++ ':' :: '/' :: '/' ::
              ((splitAtFirst '/' (splitAtFirst '?' (splitAtFirst '#' rest).1).1).1.map Char.toLower ++
                (if (splitAtFirst '/' (splitAtFirst '?' (splitAtFirst '#' rest).1).1).2 = []
                  then ['/'] else (splitAtFirst '/' (splitAtFirst '?' (splitAtFirst '#' rest).1).1).2) ++
                (splitAtFirst '?' (splitAtFirst '#' rest).1).2) from by
          simp [urlToString]]
        rw [hbuild, map_toLower_idem, map_toLower_idem]
    · rw [if_neg hvs] at h
      cases h
  · cases h

/-- C2: `removeFragment` is total -- it returns the input unchanged
whenever URL parsing fails -- and idempotent: normalizing a normalized
address yields itself. -/
theorem removeFragment_total_and_idem :
    (∀ s : Str, parseURL s = none → removeFragment s = s) ∧
    (∀ s : Str, removeFragment (removeFragment s) = removeFragment s) := by
  constructor
  · intro s h
    simp [removeFragment, h]
  · intro s
    cases hp : parseURL s with
    | none => simp [removeFragment, hp]
    | some u =>
      have h1 : removeFragment s = urlToString { u with hash := [] } := by
        simp [removeFragment, hp]
      rw [h1]
      have h2 : removeFragment (urlToString { u with hash := [] }) =
          urlToString { u with hash := [] } := by
        unfold removeFragment
        rw [parseURL_roundtrip hp]
      rw [h2]

/-- Witness for C2: a concrete unparseable address is returned unchanged,
and normalization of a concrete fragment-bearing address is idempotent. -/
theorem removeFragment_total_and_idem_witness :
    parseURL (str "not a url") = none ∧
    removeFragment (str "not a url") = str "not a url" ∧
    removeFragment (removeFragment (str "https://a.com/x#f")) =
      removeFragment (str "https://a.com/x#f") :=
  ⟨by decide,
   removeFragment_total_and_idem.1 (str "not a url") (by decide),
   removeFragment_total_and_idem.2 (str "https://a.com/x#f")⟩
